import Mathlib

/-!
Verification of the file-discovery and identity-matching core of
`adc-to-zmap-nii-to-dcm` (`src/app.py`).

The embedding models:
* `basename` / `dirname` — `os.path.basename` / `os.path.dirname` (POSIX);
* `niiPrompt` — `re.sub(r'_ss_zmap\.nii\.gz$', '', filename)`.  Python's `$`
  matches at the end of the string *or just before a final newline*, so the
  substitution has three cases: suffix at end (removed), suffix just before a
  single trailing newline (removed, newline kept), otherwise no match;
* `spaceToUnderscore` — `re.sub(r' ', '_', s)`: every space becomes `_`;
* DICOM metadata reads — per-field `Option String` outcomes (`none` models a
  raised exception caught by the `try/except` blocks of `_get_dcm_fileinfo`);
* the directory walk — a list of `(root, filenames)` pairs in traversal
  order, with the DICOM contents of the filesystem given by an oracle
  `meta : String → DcmRead`;
* the prompt dictionary of `_nii_dcm_pairs` — a left fold that inserts each
  record in order, later insertions overwriting earlier ones (Python dict
  comprehension semantics), queried by `dcmFileinfoMap`;
* the conversion loop of `main` — the list of calls it issues to
  `run_nii2dcm`, as `ConvCall` values.
-/

set_option autoImplicit false

namespace AdcToZmap

/-- `os.path.basename`: the characters after the last `/` (the whole string
when it has no `/`). -/
def basename (s : String) : String :=
  String.mk ((s.data.reverse.takeWhile (fun c => c ≠ '/')).reverse)

/-- `os.path.dirname`: the characters up to the last `/`, with trailing
slashes stripped unless the result is all slashes; `""` when there is no
`/`. -/
def dirname (s : String) : String :=
  let head := (s.data.reverse.dropWhile (fun c => c ≠ '/')).reverse
  if head.isEmpty then String.mk head
  else if head.all (fun c => c = '/') then String.mk head
  else String.mk ((head.reverse.dropWhile (fun c => c = '/')).reverse)

/-- `str.endswith(suf)`. -/
def hasSuffix (s suf : String) : Bool :=
  suf.data.isSuffixOf s.data

/-- The literal NIfTI suffix `_ss_zmap.nii.gz` (15 characters). -/
def niiSuffix : List Char := "_ss_zmap.nii.gz".data

/-- `_get_nii_fileinfo`'s prompt derivation:
`re.sub(r'_ss_zmap\.nii\.gz$', '', filename)`.  `$` matches at the end of
the string or just before a newline that ends the string, so the anchored
literal pattern has at most one match. -/
def niiPrompt (filename : String) : String :=
  if niiSuffix.isSuffixOf filename.data then
    String.mk (filename.data.take (filename.data.length - 15))
  else if (niiSuffix ++ ['\n']).isSuffixOf filename.data then
    String.mk ((filename.data.take (filename.data.length - 16)) ++ ['\n'])
  else filename

/-- The record `_get_nii_fileinfo` returns:
`{'filename': ..., 'prompt': ..., 'base_filename': ...}`. -/
structure NiiRecord where
  filename : String
  prompt : String
  base_filename : String
deriving DecidableEq

/-- The record `_get_dcm_fileinfo` returns. -/
structure DcmRecord where
  filename : String
  prompt : String
  base_filename : String
deriving DecidableEq

/-- `_get_nii_fileinfo`. -/
def getNiiFileinfo (filename : String) : NiiRecord :=
  ⟨filename, niiPrompt filename, basename filename⟩

/-- `_get_nii_fileinfos`: filter the directory entries to those ending in
`.nii.gz`, map `_get_nii_fileinfo` over them.  The argument is the entry
list returned by `os.listdir(inputdir)`. -/
def getNiiFileinfos (filenames : List String) : List NiiRecord :=
  (filenames.filter (fun x => hasSuffix x ".nii.gz")).map getNiiFileinfo

/-- The outcome of the five metadata reads attempted by
`_get_dcm_fileinfo` on one DICOM file: `none` models the read raising (the
`except` branch), `some v` a successful read of value `v`. -/
structure DcmRead where
  protocolName : Option String
  sequenceName : Option String
  seriesDescription : Option String
  studyDate : Option String
  studyTime : Option String
  seriesNumber : Option String
deriving DecidableEq

/-- `re.sub(r' ', '_', s)`: replace every space character by `_`. -/
def spaceToUnderscore (s : String) : String :=
  String.mk (s.data.map (fun c => if c = ' ' then '_' else c))

/-- The DICOM prompt formula of `_get_dcm_fileinfo` line 154-155:
`f'{...}_{...}_{...}_{...}_{...}'` then spaces replaced by underscores. -/
def dcmPrompt (protocol_name description the_date the_time series_no : String) : String :=
  spaceToUnderscore
    (protocol_name ++ "_" ++ description ++ "_" ++ the_date ++ "_" ++ the_time ++ "_" ++ series_no)

/-- `_get_dcm_fileinfo`: fallback chain per field (ProtocolName, then
SequenceName, then `""` for the protocol; `""` for each of the other four),
prompt built from the five resolved values, `base_filename` is
`<parentDirName>/<fileBaseName>`. -/
def getDcmFileinfo (filename : String) (r : DcmRead) : DcmRecord :=
  let the_base_filename := basename filename
  let dir_basename := basename (dirname filename)
  let base_filename := dir_basename ++ "/" ++ the_base_filename
  let protocol_name :=
    match r.protocolName with
    | some v => v
    | none =>
      match r.sequenceName with
      | some v => v
      | none => ""
  let description := match r.seriesDescription with | some v => v | none => ""
  let the_date := match r.studyDate with | some v => v | none => ""
  let the_time := match r.studyTime with | some v => v | none => ""
  let series_no := match r.seriesNumber with | some v => v | none => ""
  let prompt := spaceToUnderscore
    (protocol_name ++ "_" ++ description ++ "_" ++ the_date ++ "_" ++ the_time ++ "_" ++ series_no)
  ⟨filename, prompt, base_filename⟩

/-- One directory visited by `os.walk`: its root path and the file names it
directly contains, in traversal order. -/
structure WalkDir where
  root : String
  filenames : List String
deriving DecidableEq

/-- The body of the `os.walk` loop in `_get_dcm_fileinfos` for one
directory: filter to names ending in `.dcm`; `continue` (i.e. `none`) when
there are none, otherwise build the record from `f'{root}/{first}'`. -/
def dirDcmRecord (meta : String → DcmRead) (d : WalkDir) : Option DcmRecord :=
  match d.filenames.filter (fun x => hasSuffix x ".dcm") with
  | [] => none
  | f :: _ => some (getDcmFileinfo (d.root ++ "/" ++ f) (meta (d.root ++ "/" ++ f)))

/-- `_get_dcm_fileinfos`: the loop appends one record per qualifying
directory, in traversal order — i.e. `filterMap` of the loop body. -/
def getDcmFileinfos (meta : String → DcmRead) (dirs : List WalkDir) : List DcmRecord :=
  dirs.filterMap (dirDcmRecord meta)

/-- The dict `{each['prompt']: each for each in dcm_fileinfos}` queried at
key `p` via `.get(p, None)`: entries are inserted left to right, a later
record with the same prompt overwriting the earlier one. -/
def dcmFileinfoMap (dcms : List DcmRecord) (p : String) : Option DcmRecord :=
  dcms.foldl (fun acc d => if d.prompt = p then some d else acc) none

/-- The list comprehension `pairs` of `_nii_dcm_pairs`: every NIfTI record
with the result of looking its prompt up in the dict. -/
def allPairs (niis : List NiiRecord) (dcms : List DcmRecord) :
    List (NiiRecord × Option DcmRecord) :=
  niis.map (fun n => (n, dcmFileinfoMap dcms n.prompt))

/-- `invalid_pairs`: the pairs whose DICOM side is `None`. -/
def invalidPairs (niis : List NiiRecord) (dcms : List DcmRecord) :
    List (NiiRecord × Option DcmRecord) :=
  (allPairs niis dcms).filter (fun x => x.2.isNone)

/-- The unmatched NIfTI records (the NIfTI sides of `invalid_pairs`). -/
def unmatchedNii (niis : List NiiRecord) (dcms : List DcmRecord) : List NiiRecord :=
  (invalidPairs niis dcms).map Prod.fst

/-- `valid_pairs`, the value `_nii_dcm_pairs` returns: the pairs whose
DICOM side is not `None`; filtering out `None` and unwrapping the present
value are fused into one `filterMap`. -/
def niiDcmPairs (niis : List NiiRecord) (dcms : List DcmRecord) :
    List (NiiRecord × DcmRecord) :=
  (allPairs niis dcms).filterMap (fun x => x.2.map (fun d => (x.1, d)))

/-- The literal suffix `.nii.gz` (7 characters). -/
def niigzSuffix : List Char := ".nii.gz".data

/-- The suffix strip in `_get_outdir`: `re.sub(r'\.nii\.gz$', '', b)`, with
the same `$` semantics as `niiPrompt` (end of string, or just before a
final newline). -/
def stripNiiGz (b : String) : String :=
  if niigzSuffix.isSuffixOf b.data then
    String.mk (b.data.take (b.data.length - 7))
  else if (niigzSuffix ++ ['\n']).isSuffixOf b.data then
    String.mk ((b.data.take (b.data.length - 8)) ++ ['\n'])
  else b

/-- `_get_outdir`: `f'{outputdir}/{nii_prefix}'` where the stem is the
basename of the NIfTI filename with the `.nii.gz` suffix substituted
away. -/
def getOutdir (outputdir : String) (nii_filename : String) : String :=
  outputdir ++ "/" ++ stripNiiGz (basename nii_filename)

/-- One invocation of the external conversion routine `run_nii2dcm`, in the
argument order of the call in `main`. -/
structure ConvCall where
  src : String
  outDir : String
  modality : String
  ref : String
deriving DecidableEq

/-- The conversion loop of `main`: one `run_nii2dcm(nii_filename, out_dir,
'MR', dcm_filename)` call per matched pair, in order. -/
def mainConvCalls (outputdir : String) (pairs : List (NiiRecord × DcmRecord)) :
    List ConvCall :=
  pairs.map (fun p => ⟨p.1.filename, getOutdir outputdir p.1.filename, "MR", p.2.filename⟩)

/-- `main` end to end: both inventories, the resolver, then the conversion
loop over the matched pairs. -/
def mainRun (meta : String → DcmRead) (inputNames : List String)
    (dirs : List WalkDir) (outputdir : String) : List ConvCall :=
  mainConvCalls outputdir
    (niiDcmPairs (getNiiFileinfos inputNames) (getDcmFileinfos meta dirs))

/-- Modelled from the spec (section 4.5, for comparison with the code's
regex-based strip): remove `suf` from the end of `s` when `s` ends with it,
otherwise return `s` unchanged. -/
def stripSuffixSpec (s suf : String) : String :=
  if suf.data.isSuffixOf s.data then String.mk (s.data.take (s.data.length - suf.data.length))
  else s

example : niiPrompt "brainA_ss_zmap.nii.gz" = "brainA" := by decide
example : niiPrompt "brainA.nii.gz" = "brainA.nii.gz" := by decide
example : spaceToUnderscore "a b  c" = "a_b__c" := by decide
example : basename "seriesX/scan1.dcm" = "scan1.dcm" := by decide
example : dirname "a/seriesX/scan1.dcm" = "a/seriesX" := by decide
example : basename "abc" = "abc" := by decide

/-! ## Helper lemmas -/

/-- A fold over records none of which has prompt `p` leaves the accumulator
unchanged. -/
theorem foldl_dcm_no_match (p : String) (l : List DcmRecord) (acc : Option DcmRecord)
    (h : ∀ d ∈ l, d.prompt ≠ p) :
    l.foldl (fun a d => if d.prompt = p then some d else a) acc = acc := by
  induction l generalizing acc with
  | nil => rfl
  | cons d t ih =>
    have hd : d.prompt ≠ p := h d (List.mem_cons_self d t)
    simp only [List.foldl_cons, if_neg hd]
    exact ih acc (fun x hx => h x (List.mem_cons_of_mem d hx))

/-- The dict lookup returns the last record in insertion order whose prompt
is `p`. -/
theorem dcmFileinfoMap_eq_getLast (p : String) (dcms : List DcmRecord) :
    dcmFileinfoMap dcms p = (dcms.filter (fun d => d.prompt = p)).getLast? := by
  induction dcms using List.reverseRecOn with
  | nil => rfl
  | append_singleton l d ih =>
    unfold dcmFileinfoMap at ih ⊢
    rw [List.foldl_append, List.filter_append, ih]
    by_cases h : d.prompt = p
    · simp [h, List.getLast?_concat]
    · simp [h]

/-- The lookup misses exactly when no record has prompt `p`. -/
theorem dcmFileinfoMap_eq_none_iff (p : String) (dcms : List DcmRecord) :
    dcmFileinfoMap dcms p = none ↔ ∀ d ∈ dcms, d.prompt ≠ p := by
  rw [dcmFileinfoMap_eq_getLast, List.getLast?_eq_none_iff, List.filter_eq_nil_iff]
  simp

/-- A successful lookup returns a record of the list carrying prompt `p`. -/
theorem dcmFileinfoMap_eq_some_mem {p : String} {dcms : List DcmRecord} {d : DcmRecord}
    (h : dcmFileinfoMap dcms p = some d) : d ∈ dcms ∧ d.prompt = p := by
  rw [dcmFileinfoMap_eq_getLast] at h
  have hmem := List.mem_of_mem_getLast? h
  rw [List.mem_filter] at hmem
  exact ⟨hmem.1, by simpa using hmem.2⟩

/-- When prompts are pairwise distinct, the records with prompt `p` form at
most a singleton, so lookup finds exactly the member with that prompt. -/
theorem dcmFileinfoMap_eq_some_of_nodup {p : String} {dcms : List DcmRecord} {d : DcmRecord}
    (hnd : (dcms.map DcmRecord.prompt).Nodup) (hd : d ∈ dcms) (hp : d.prompt = p) :
    dcmFileinfoMap dcms p = some d := by
  rw [dcmFileinfoMap_eq_getLast]
  have hfil : dcms.filter (fun x => x.prompt = p) = [d] := by
    induction dcms with
    | nil => cases hd
    | cons x t ih =>
      rw [List.map_cons, List.nodup_cons] at hnd
      rcases List.mem_cons.mp hd with rfl | hdt
      · have ht : t.filter (fun x => x.prompt = p) = [] := by
          rw [List.filter_eq_nil_iff]
          intro y hy hyp
          exact hnd.1 (by
            rw [List.mem_map]
            exact ⟨y, hy, by simpa [hp] using of_decide_eq_true hyp⟩)
        simp [List.filter_cons, hp, ht]
      · have hxp : x.prompt ≠ p := by
          intro hxp
          exact hnd.1 (by
            rw [List.mem_map]
            exact ⟨d, hdt, by rw [hp, hxp]⟩)
        rw [List.filter_cons, if_neg (by simpa using hxp)]
        exact ih hnd.2 hdt
  rw [hfil]
  rfl

/-- With pairwise-distinct prompts, the lookup result is invariant under
permutation of the DICOM record list. -/
theorem dcmFileinfoMap_perm {dcms dcms' : List DcmRecord}
    (hperm : dcms'.Perm dcms) (hnd : (dcms.map DcmRecord.prompt).Nodup) (p : String) :
    dcmFileinfoMap dcms' p = dcmFileinfoMap dcms p := by
  have hnd' : (dcms'.map DcmRecord.prompt).Nodup :=
    ((hperm.map DcmRecord.prompt).nodup_iff).mpr hnd
  cases h : dcmFileinfoMap dcms' p with
  | none =>
    rw [dcmFileinfoMap_eq_none_iff] at h
    exact ((dcmFileinfoMap_eq_none_iff p dcms).mpr
      (fun d hd => h d (hperm.mem_iff.mpr hd))).symm
  | some d =>
    obtain ⟨hmem, hp⟩ := dcmFileinfoMap_eq_some_mem h
    exact (dcmFileinfoMap_eq_some_of_nodup hnd (hperm.subset hmem) hp).symm

/-- The resolver output, with the intermediate `pairs` list fused away. -/
theorem niiDcmPairs_eq_filterMap (niis : List NiiRecord) (dcms : List DcmRecord) :
    niiDcmPairs niis dcms
      = niis.filterMap (fun n => (dcmFileinfoMap dcms n.prompt).map (fun d => (n, d))) := by
  unfold niiDcmPairs allPairs
  rw [List.filterMap_map]
  rfl

/-- Membership in the matched pairs is exactly: the NIfTI record is in the
input and the dict lookup at its prompt returns that DICOM record. -/
theorem mem_niiDcmPairs_iff {niis : List NiiRecord} {dcms : List DcmRecord}
    {n : NiiRecord} {d : DcmRecord} :
    (n, d) ∈ niiDcmPairs niis dcms
      ↔ n ∈ niis ∧ dcmFileinfoMap dcms n.prompt = some d := by
  rw [niiDcmPairs_eq_filterMap, List.mem_filterMap]
  constructor
  · rintro ⟨m, hm, h⟩
    rw [Option.map_eq_some'] at h
    obtain ⟨d', hd', heq⟩ := h
    obtain ⟨rfl, rfl⟩ := Prod.mk.injEq m d' n d ▸ And.intro (congrArg Prod.fst heq) (congrArg Prod.snd heq)
    exact ⟨hm, hd'⟩
  · rintro ⟨hn, hd⟩
    exact ⟨n, hn, by rw [hd]; rfl⟩

/-- Membership in the unmatched list is exactly: the NIfTI record is in the
input and the dict lookup at its prompt misses. -/
theorem mem_unmatchedNii_iff {niis : List NiiRecord} {dcms : List DcmRecord}
    {n : NiiRecord} :
    n ∈ unmatchedNii niis dcms
      ↔ n ∈ niis ∧ dcmFileinfoMap dcms n.prompt = none := by
  unfold unmatchedNii invalidPairs allPairs
  rw [List.mem_map]
  constructor
  · rintro ⟨x, hx, rfl⟩
    rw [List.mem_filter, List.mem_map] at hx
    obtain ⟨⟨m, hm, rfl⟩, hnone⟩ := hx
    exact ⟨hm, Option.isNone_iff_eq_none.mp (by simpa using hnone)⟩
  · rintro ⟨hn, hnone⟩
    refine ⟨(n, dcmFileinfoMap dcms n.prompt), ?_, rfl⟩
    rw [List.mem_filter, List.mem_map]
    exact ⟨⟨n, hn, rfl⟩, by simp [hnone]⟩

/-- `takeWhile` over an append whose left part wholly satisfies the
predicate keeps the left part and continues into the right. -/
theorem takeWhile_append_of_all {p : Char → Bool} (l1 l2 : List Char)
    (h : ∀ c ∈ l1, p c = true) :
    (l1 ++ l2).takeWhile p = l1 ++ l2.takeWhile p := by
  induction l1 with
  | nil => rfl
  | cons c t ih =>
    simp only [List.cons_append, List.takeWhile_cons, h c (List.mem_cons_self c t)]
    rw [ih (fun x hx => h x (List.mem_cons_of_mem c hx))]
    simp

/-- `os.path.basename` of a name containing no slash is the name itself. -/
theorem basename_eq_self {s : String} (h : ('/' : Char) ∉ s.data) : basename s = s := by
  unfold basename
  have ht : s.data.reverse.takeWhile (fun c => c ≠ '/') = s.data.reverse := by
    rw [List.takeWhile_eq_self_iff]
    intro x hx
    simp only [decide_eq_true_eq]
    exact fun hxe => h (hxe ▸ List.mem_reverse.mp hx)
  rw [ht, List.reverse_reverse]

/-- A slash-free suffix of a path is also a suffix of its basename. -/
theorem isSuffix_basename {s : String} {suf : List Char}
    (hs : suf <:+ s.data) (hne : ∀ c ∈ suf, c ≠ '/') :
    suf <:+ (basename s).data := by
  obtain ⟨pre, hpre⟩ := hs
  unfold basename
  show suf <:+ (s.data.reverse.takeWhile (fun c => c ≠ '/')).reverse
  rw [← hpre, List.reverse_append]
  rw [takeWhile_append_of_all _ _ (fun c hc => by
    simp only [decide_eq_true_eq]
    exact hne c (List.mem_reverse.mp hc))]
  rw [List.reverse_append, List.reverse_reverse]
  exact ⟨(pre.reverse.takeWhile (fun c => c ≠ '/')).reverse, rfl⟩

/-- Unfolding of membership in the NIfTI inventory: the record was built by
`_get_nii_fileinfo` from an input entry ending in `.nii.gz`. -/
theorem mem_getNiiFileinfos {names : List String} {r : NiiRecord}
    (h : r ∈ getNiiFileinfos names) :
    r.filename ∈ names ∧ hasSuffix r.filename ".nii.gz" = true
      ∧ r = getNiiFileinfo r.filename := by
  unfold getNiiFileinfos at h
  rw [List.mem_map] at h
  obtain ⟨x, hx, rfl⟩ := h
  rw [List.mem_filter] at hx
  exact ⟨hx.1, hx.2, rfl⟩

/-! ## Claim theorems -/

/-- Claim C5, counterexample: the filename `"a_ss_zmap.nii.gz\n"` does not
end in the literal suffix `_ss_zmap.nii.gz`, yet `niiPrompt` does not
return it unchanged: Python's `$` also matches just before a final newline,
so the substitution yields `"a\n"`. -/
theorem c5_niiPrompt_counterexample :
    ¬ niiSuffix <:+ ("a_ss_zmap.nii.gz\n" : String).data
    ∧ niiPrompt "a_ss_zmap.nii.gz\n" = "a\n"
    ∧ niiPrompt "a_ss_zmap.nii.gz\n" ≠ "a_ss_zmap.nii.gz\n" := by
  refine ⟨by decide, by decide, by decide⟩

/-- Claim C5 as amended: for every filename ending in `_ss_zmap.nii.gz`,
`niiPrompt` removes that suffix; for a filename not ending in it,
`niiPrompt` returns it unchanged unless the filename ends in the suffix
followed by a single final newline, in which case the suffix occurrence
before that newline is removed and the newline kept. -/
theorem c5_niiPrompt_strip (f : String) :
    (niiSuffix <:+ f.data → (niiPrompt f).data ++ niiSuffix = f.data)
    ∧ (¬ niiSuffix <:+ f.data → ¬ (niiSuffix ++ ['\n']) <:+ f.data → niiPrompt f = f)
    ∧ (¬ niiSuffix <:+ f.data → (niiSuffix ++ ['\n']) <:+ f.data →
        ∃ pre, f.data = pre ++ niiSuffix ++ ['\n'] ∧ (niiPrompt f).data = pre ++ ['\n']) := by
  refine ⟨?_, ?_, ?_⟩
  · intro h
    obtain ⟨pre, hpre⟩ := h
    unfold niiPrompt
    rw [if_pos (List.isSuffixOf_iff_suffix.mpr ⟨pre, hpre⟩)]
    show f.data.take (f.data.length - 15) ++ niiSuffix = f.data
    have hlen : f.data.length = pre.length + 15 := by
      rw [← hpre, List.length_append]
      congr 1
    rw [hlen, Nat.add_sub_cancel, ← hpre, List.take_left]
  · intro h1 h2
    unfold niiPrompt
    rw [if_neg (fun hc => h1 (List.isSuffixOf_iff_suffix.mp hc)),
      if_neg (fun hc => h2 (List.isSuffixOf_iff_suffix.mp hc))]
  · intro h1 h2
    obtain ⟨pre, hpre⟩ := h2
    refine ⟨pre, by rw [← hpre, List.append_assoc], ?_⟩
    unfold niiPrompt
    rw [if_neg (fun hc => h1 (List.isSuffixOf_iff_suffix.mp hc)),
      if_pos (List.isSuffixOf_iff_suffix.mpr ⟨pre, hpre⟩)]
    show f.data.take (f.data.length - 16) ++ ['\n'] = pre ++ ['\n']
    have hlen : f.data.length = pre.length + 16 := by
      rw [← hpre, List.length_append]
      congr 1
    rw [hlen, Nat.add_sub_cancel, ← hpre, List.take_left]

/-- Witness for the amended C5 at concrete inputs. -/
theorem c5_niiPrompt_strip_witness :
    (niiPrompt "brainA_ss_zmap.nii.gz").data ++ niiSuffix = "brainA_ss_zmap.nii.gz".data
    ∧ niiPrompt "brainB.nii.gz" = "brainB.nii.gz" :=
  ⟨(c5_niiPrompt_strip "brainA_ss_zmap.nii.gz").1 (by decide),
   (c5_niiPrompt_strip "brainB.nii.gz").2.1 (by decide) (by decide)⟩

/-- Claim C6: the DICOM prompt is the five fields joined by `_` in the
fixed order with every space replaced by `_`, and nothing else: the output
characters are exactly the characters of the joined string, in order, with
spaces mapped to underscores and all other characters unchanged; no space
survives in the output. (Purity of `dcmPrompt` in its five arguments is
inherent: it is a function of exactly those arguments.) -/
theorem c6_dcmPrompt_join (p d dt t s : String) :
    (dcmPrompt p d dt t s).data
      = (p ++ "_" ++ d ++ "_" ++ dt ++ "_" ++ t ++ "_" ++ s).data.map
          (fun c => if c = ' ' then '_' else c)
    ∧ (∀ c ∈ (dcmPrompt p d dt t s).data, c ≠ ' ')
    ∧ (∀ c, c ∈ (p ++ "_" ++ d ++ "_" ++ dt ++ "_" ++ t ++ "_" ++ s).data → c ≠ ' ' →
        c ∈ (dcmPrompt p d dt t s).data) := by
  refine ⟨rfl, ?_, ?_⟩
  · intro c hc
    rw [show (dcmPrompt p d dt t s).data
        = (p ++ "_" ++ d ++ "_" ++ dt ++ "_" ++ t ++ "_" ++ s).data.map
            (fun c => if c = ' ' then '_' else c) from rfl, List.mem_map] at hc
    obtain ⟨x, _, rfl⟩ := hc
    by_cases hx : x = ' ' <;> simp [hx]
  · intro c hc hne
    rw [show (dcmPrompt p d dt t s).data
        = (p ++ "_" ++ d ++ "_" ++ dt ++ "_" ++ t ++ "_" ++ s).data.map
            (fun c => if c = ' ' then '_' else c) from rfl, List.mem_map]
    exact ⟨c, hc, by simp [hne]⟩

/-- Witness for C6 at concrete inputs. -/
theorem c6_dcmPrompt_join_witness :
    'b' ∈ (dcmPrompt "a b" "c" "" "" "1").data :=
  (c6_dcmPrompt_join "a b" "c" "" "" "1").2.2 'b' (by decide) (by decide)

/-- Claim C4: DICOM metadata extraction is total over every combination of
per-field read outcomes; the record's prompt is always `dcmPrompt` of the
five resolved values, where `protocolName` falls back from the
`ProtocolName` read to the `SequenceName` read and then to `""`, and each
of the other four fields falls back to `""`, so a failed field contributes
an empty segment at its position. -/
theorem c4_dcm_extraction_total (filename : String) (r : DcmRead) :
    ((getDcmFileinfo filename r).prompt
      = dcmPrompt
          (match r.protocolName with
           | some v => v
           | none => match r.sequenceName with | some w => w | none => "")
          (r.seriesDescription.getD "") (r.studyDate.getD "")
          (r.studyTime.getD "") (r.seriesNumber.getD ""))
    ∧ (∀ v, r.protocolName = some v →
        (getDcmFileinfo filename r).prompt
          = dcmPrompt v (r.seriesDescription.getD "") (r.studyDate.getD "")
              (r.studyTime.getD "") (r.seriesNumber.getD ""))
    ∧ (∀ w, r.protocolName = none → r.sequenceName = some w →
        (getDcmFileinfo filename r).prompt
          = dcmPrompt w (r.seriesDescription.getD "") (r.studyDate.getD "")
              (r.studyTime.getD "") (r.seriesNumber.getD ""))
    ∧ (r.protocolName = none → r.sequenceName = none →
        (getDcmFileinfo filename r).prompt
          = dcmPrompt "" (r.seriesDescription.getD "") (r.studyDate.getD "")
              (r.studyTime.getD "") (r.seriesNumber.getD ""))
    ∧ (r.seriesDescription = none →
        (getDcmFileinfo filename r).prompt
          = dcmPrompt
              (match r.protocolName with
               | some v => v
               | none => match r.sequenceName with | some w => w | none => "")
              "" (r.studyDate.getD "") (r.studyTime.getD "") (r.seriesNumber.getD ""))
    ∧ (r.studyDate = none →
        (getDcmFileinfo filename r).prompt
          = dcmPrompt
              (match r.protocolName with
               | some v => v
               | none => match r.sequenceName with | some w => w | none => "")
              (r.seriesDescription.getD "") "" (r.studyTime.getD "") (r.seriesNumber.getD ""))
    ∧ (r.studyTime = none →
        (getDcmFileinfo filename r).prompt
          = dcmPrompt
              (match r.protocolName with
               | some v => v
               | none => match r.sequenceName with | some w => w | none => "")
              (r.seriesDescription.getD "") (r.studyDate.getD "") "" (r.seriesNumber.getD ""))
    ∧ (r.seriesNumber = none →
        (getDcmFileinfo filename r).prompt
          = dcmPrompt
              (match r.protocolName with
               | some v => v
               | none => match r.sequenceName with | some w => w | none => "")
              (r.seriesDescription.getD "") (r.studyDate.getD "") (r.studyTime.getD "") "") := by
  rcases r with ⟨pn, sn, sd, sdt, stm, sno⟩
  refine ⟨?_, ?_, ?_, ?_, ?_, ?_, ?_, ?_⟩
  · cases pn <;> cases sn <;> cases sd <;> cases sdt <;> cases stm <;> cases sno <;> rfl
  · rintro v rfl
    cases sd <;> cases sdt <;> cases stm <;> cases sno <;> rfl
  · rintro w rfl rfl
    cases sd <;> cases sdt <;> cases stm <;> cases sno <;> rfl
  · rintro rfl rfl
    cases sd <;> cases sdt <;> cases stm <;> cases sno <;> rfl
  · rintro rfl
    cases pn <;> cases sn <;> cases sdt <;> cases stm <;> cases sno <;> rfl
  · rintro rfl
    cases pn <;> cases sn <;> cases sd <;> cases stm <;> cases sno <;> rfl
  · rintro rfl
    cases pn <;> cases sn <;> cases sd <;> cases sdt <;> cases sno <;> rfl
  · rintro rfl
    cases pn <;> cases sn <;> cases sd <;> cases sdt <;> cases stm <;> rfl

/-- Witness for C4: a file on which every read fails still yields a record,
whose prompt has five empty segments. -/
theorem c4_dcm_extraction_total_witness :
    (getDcmFileinfo "series/a.dcm" ⟨none, none, none, none, none, none⟩).prompt
      = dcmPrompt "" "" "" "" "" :=
  (c4_dcm_extraction_total "series/a.dcm" ⟨none, none, none, none, none, none⟩).2.2.2.1 rfl rfl

/-- Claim C1: `_nii_dcm_pairs` pairs each NIfTI record with the DICOM
record found by looking its prompt up in the DICOM-prompt mapping, and
returns exactly the matched pairs: membership in the result is equivalent
to membership of the NIfTI record in the input plus a successful lookup; a
NIfTI record whose prompt matches no DICOM record is in `unmatchedNii` and
in no returned pair; one whose prompt matches some DICOM record is paired
with the looked-up record. -/
theorem c1_resolve_pairs (niis : List NiiRecord) (dcms : List DcmRecord) :
    (∀ n d, (n, d) ∈ niiDcmPairs niis dcms
      ↔ n ∈ niis ∧ dcmFileinfoMap dcms n.prompt = some d)
    ∧ (∀ n, n ∈ unmatchedNii niis dcms
      ↔ n ∈ niis ∧ ∀ d ∈ dcms, d.prompt ≠ n.prompt)
    ∧ (∀ n, n ∈ niis → (∃ d ∈ dcms, d.prompt = n.prompt) →
        ∃ d, dcmFileinfoMap dcms n.prompt = some d ∧ d ∈ dcms ∧ d.prompt = n.prompt
          ∧ (n, d) ∈ niiDcmPairs niis dcms ∧ n ∉ unmatchedNii niis dcms) := by
  refine ⟨fun n d => mem_niiDcmPairs_iff, ?_, ?_⟩
  · intro n
    rw [mem_unmatchedNii_iff, dcmFileinfoMap_eq_none_iff]
  · intro n hn hex
    cases hlook : dcmFileinfoMap dcms n.prompt with
    | none =>
      rw [dcmFileinfoMap_eq_none_iff] at hlook
      obtain ⟨d, hd, hdp⟩ := hex
      exact absurd hdp (hlook d hd)
    | some d =>
      obtain ⟨hmem, hdp⟩ := dcmFileinfoMap_eq_some_mem hlook
      refine ⟨d, rfl, hmem, hdp, mem_niiDcmPairs_iff.mpr ⟨hn, hlook⟩, ?_⟩
      intro hun
      rw [mem_unmatchedNii_iff] at hun
      rw [hun.2] at hlook
      simp at hlook

/-- Witness for C1: one matching pair lands in `matchedPairs`; a NIfTI
record with no matching prompt lands in `unmatchedNii`. -/
theorem c1_resolve_pairs_witness :
    ((⟨"a_ss_zmap.nii.gz", "a", "a_ss_zmap.nii.gz"⟩ : NiiRecord),
        (⟨"r/x.dcm", "a", "r/x.dcm"⟩ : DcmRecord)) ∈
      niiDcmPairs [⟨"a_ss_zmap.nii.gz", "a", "a_ss_zmap.nii.gz"⟩] [⟨"r/x.dcm", "a", "r/x.dcm"⟩]
    ∧ (⟨"b_ss_zmap.nii.gz", "b", "b_ss_zmap.nii.gz"⟩ : NiiRecord) ∈
      unmatchedNii [⟨"b_ss_zmap.nii.gz", "b", "b_ss_zmap.nii.gz"⟩] [⟨"r/x.dcm", "a", "r/x.dcm"⟩] :=
  ⟨((c1_resolve_pairs [⟨"a_ss_zmap.nii.gz", "a", "a_ss_zmap.nii.gz"⟩]
        [⟨"r/x.dcm", "a", "r/x.dcm"⟩]).1 _ _).mpr ⟨by simp, by decide⟩,
   ((c1_resolve_pairs [⟨"b_ss_zmap.nii.gz", "b", "b_ss_zmap.nii.gz"⟩]
        [⟨"r/x.dcm", "a", "r/x.dcm"⟩]).2.1 _).mpr ⟨by simp, by decide⟩⟩

/-- Claim C2: when two DICOM records share a prompt and no later record
carries it, the mapping holds exactly the later one, and every NIfTI record
with that prompt is paired with that later record. -/
theorem c2_last_write_wins (l1 l2 l3 : List DcmRecord) (d1 d2 : DcmRecord)
    (niis : List NiiRecord) (hp : d1.prompt = d2.prompt)
    (h3 : ∀ d ∈ l3, d.prompt ≠ d1.prompt) :
    dcmFileinfoMap (l1 ++ d1 :: l2 ++ d2 :: l3) d1.prompt = some d2
    ∧ ∀ n ∈ niis, n.prompt = d1.prompt →
        (n, d2) ∈ niiDcmPairs niis (l1 ++ d1 :: l2 ++ d2 :: l3) := by
  have hmap : dcmFileinfoMap (l1 ++ d1 :: l2 ++ d2 :: l3) d1.prompt = some d2 := by
    rw [show l1 ++ d1 :: l2 ++ d2 :: l3 = (l1 ++ d1 :: l2 ++ [d2]) ++ l3 by simp]
    unfold dcmFileinfoMap
    rw [List.foldl_append, foldl_dcm_no_match d1.prompt l3 _ h3]
    rw [show l1 ++ d1 :: l2 ++ [d2] = (l1 ++ d1 :: l2) ++ [d2] by simp]
    rw [List.foldl_append]
    simp only [List.foldl_cons, List.foldl_nil]
    rw [if_pos hp.symm]
  exact ⟨hmap, fun n hn hnp => mem_niiDcmPairs_iff.mpr ⟨hn, by rw [hnp, hmap]⟩⟩

/-- Witness for C2 with two same-prompt DICOM records. -/
theorem c2_last_write_wins_witness :
    dcmFileinfoMap [⟨"r1/a.dcm", "p", "r1/a.dcm"⟩, ⟨"r2/b.dcm", "p", "r2/b.dcm"⟩] "p"
      = some ⟨"r2/b.dcm", "p", "r2/b.dcm"⟩
    ∧ ((⟨"n", "p", "n"⟩ : NiiRecord), (⟨"r2/b.dcm", "p", "r2/b.dcm"⟩ : DcmRecord)) ∈
      niiDcmPairs [⟨"n", "p", "n"⟩]
        [⟨"r1/a.dcm", "p", "r1/a.dcm"⟩, ⟨"r2/b.dcm", "p", "r2/b.dcm"⟩] := by
  have h := c2_last_write_wins [] [] [] ⟨"r1/a.dcm", "p", "r1/a.dcm"⟩
    ⟨"r2/b.dcm", "p", "r2/b.dcm"⟩ [⟨"n", "p", "n"⟩] rfl (by simp)
  exact ⟨h.1, h.2 _ (by simp) rfl⟩

/-- Claim C10: the resolver never deduplicates NIfTI records — two records
with the same matched prompt each appear in the output, paired with the
identical DICOM record, and the output preserves the relative input order
(its first projection is a sublist of the input). -/
theorem c10_no_dedup (niis1 niis2 niis3 : List NiiRecord) (n1 n2 : NiiRecord)
    (dcms : List DcmRecord) (d : DcmRecord)
    (hp : n2.prompt = n1.prompt)
    (hd : dcmFileinfoMap dcms n1.prompt = some d) :
    niiDcmPairs (niis1 ++ n1 :: niis2 ++ n2 :: niis3) dcms
      = niiDcmPairs niis1 dcms
          ++ (n1, d) :: (niiDcmPairs niis2 dcms ++ (n2, d) :: niiDcmPairs niis3 dcms)
    ∧ ∀ niis : List NiiRecord,
        List.Sublist ((niiDcmPairs niis dcms).map Prod.fst) niis := by
  constructor
  · simp only [niiDcmPairs_eq_filterMap, List.filterMap_append, List.filterMap_cons,
      hp, hd, Option.map_some']
    simp [List.append_assoc]
  · intro niis
    rw [niiDcmPairs_eq_filterMap]
    induction niis with
    | nil => simp
    | cons a t ih =>
      cases hcase : dcmFileinfoMap dcms a.prompt with
      | none =>
        simp only [List.filterMap_cons, hcase, Option.map_none']
        exact ih.cons a
      | some dx =>
        simp only [List.filterMap_cons, hcase, Option.map_some', List.map_cons]
        exact ih.cons₂ a

/-- Witness for C10: two NIfTI records with the same prompt both appear,
paired with the same DICOM record, in input order. -/
theorem c10_no_dedup_witness :
    niiDcmPairs [⟨"n1", "p", "n1"⟩, ⟨"n2", "p", "n2"⟩] [⟨"r/a.dcm", "p", "r/a.dcm"⟩]
      = [((⟨"n1", "p", "n1"⟩ : NiiRecord), (⟨"r/a.dcm", "p", "r/a.dcm"⟩ : DcmRecord)),
         (⟨"n2", "p", "n2"⟩, ⟨"r/a.dcm", "p", "r/a.dcm"⟩)] := by
  have h := (c10_no_dedup [] [] [] ⟨"n1", "p", "n1"⟩ ⟨"n2", "p", "n2"⟩
    [⟨"r/a.dcm", "p", "r/a.dcm"⟩] ⟨"r/a.dcm", "p", "r/a.dcm"⟩ rfl (by decide)).1
  simpa using h

/-- Claim C3, counterexample: with two DICOM records sharing prompt `"p"`,
swapping their order changes which record the NIfTI record is paired with,
so pairing is not order-independent in general. -/
theorem c3_order_counterexample :
    List.Perm [(⟨"r2/b.dcm", "p", "r2/b.dcm"⟩ : DcmRecord), ⟨"r1/a.dcm", "p", "r1/a.dcm"⟩]
      [⟨"r1/a.dcm", "p", "r1/a.dcm"⟩, ⟨"r2/b.dcm", "p", "r2/b.dcm"⟩]
    ∧ ((⟨"n", "p", "n"⟩ : NiiRecord), (⟨"r1/a.dcm", "p", "r1/a.dcm"⟩ : DcmRecord)) ∈
        niiDcmPairs [⟨"n", "p", "n"⟩]
          [⟨"r2/b.dcm", "p", "r2/b.dcm"⟩, ⟨"r1/a.dcm", "p", "r1/a.dcm"⟩]
    ∧ ((⟨"n", "p", "n"⟩ : NiiRecord), (⟨"r1/a.dcm", "p", "r1/a.dcm"⟩ : DcmRecord)) ∉
        niiDcmPairs [⟨"n", "p", "n"⟩]
          [⟨"r1/a.dcm", "p", "r1/a.dcm"⟩, ⟨"r2/b.dcm", "p", "r2/b.dcm"⟩] :=
  ⟨List.Perm.swap _ _ _, by decide, by decide⟩

/-- Claim C3 as amended: pairing is order-independent provided no two DICOM
records share a prompt — permuting either input permutes the matched pairs
(hence yields the same set of pairs); with duplicated DICOM prompts the
outcome may depend on order (last write wins, see C2). -/
theorem c3_order_independent_amended (niis niis' : List NiiRecord)
    (dcms dcms' : List DcmRecord) (hn : niis'.Perm niis) (hd : dcms'.Perm dcms)
    (hnodup : (dcms.map DcmRecord.prompt).Nodup) :
    (niiDcmPairs niis' dcms').Perm (niiDcmPairs niis dcms) := by
  have hlook := dcmFileinfoMap_perm hd hnodup
  rw [niiDcmPairs_eq_filterMap, niiDcmPairs_eq_filterMap]
  have hfun : (fun n : NiiRecord => (dcmFileinfoMap dcms' n.prompt).map (fun d => (n, d)))
      = (fun n : NiiRecord => (dcmFileinfoMap dcms n.prompt).map (fun d => (n, d))) := by
    funext n
    rw [hlook]
  rw [hfun]
  exact hn.filterMap _

/-- Witness for the amended C3 on concrete distinct-prompt inputs. -/
theorem c3_order_independent_amended_witness :
    (niiDcmPairs [⟨"n", "a", "n"⟩]
        [⟨"r2/b.dcm", "b", "r2/b.dcm"⟩, ⟨"r1/a.dcm", "a", "r1/a.dcm"⟩]).Perm
      (niiDcmPairs [⟨"n", "a", "n"⟩]
        [⟨"r1/a.dcm", "a", "r1/a.dcm"⟩, ⟨"r2/b.dcm", "b", "r2/b.dcm"⟩]) :=
  c3_order_independent_amended _ _ _ _ (List.Perm.refl _) (List.Perm.swap _ _ _) (by decide)

/-- Claim C7: a visited directory with no `.dcm` entry contributes no
record; one with `.dcm` entries contributes exactly one record, built from
the first matching entry, siblings ignored. -/
theorem c7_dcm_one_per_dir (meta : String → DcmRead) (pre post : List WalkDir) (d : WalkDir) :
    (d.filenames.filter (fun x => hasSuffix x ".dcm") = [] →
      getDcmFileinfos meta (pre ++ d :: post)
        = getDcmFileinfos meta pre ++ getDcmFileinfos meta post)
    ∧ (∀ f rest, d.filenames.filter (fun x => hasSuffix x ".dcm") = f :: rest →
      getDcmFileinfos meta (pre ++ d :: post)
        = getDcmFileinfos meta pre
            ++ getDcmFileinfo (d.root ++ "/" ++ f) (meta (d.root ++ "/" ++ f))
              :: getDcmFileinfos meta post) := by
  constructor
  · intro h
    unfold getDcmFileinfos
    rw [List.filterMap_append]
    congr 1
    simp only [List.filterMap_cons, dirDcmRecord, h]
  · intro f rest h
    unfold getDcmFileinfos
    rw [List.filterMap_append]
    congr 1
    simp only [List.filterMap_cons, dirDcmRecord, h]

/-- Witness for C7: a directory with no `.dcm` file yields nothing; one
with two `.dcm` files yields one record from the first. -/
theorem c7_dcm_one_per_dir_witness :
    getDcmFileinfos (fun _ => ⟨none, none, none, none, none, none⟩) [⟨"r", ["x.txt"]⟩] = []
    ∧ getDcmFileinfos (fun _ => ⟨none, none, none, none, none, none⟩)
        [⟨"r", ["a.dcm", "b.dcm"]⟩]
      = [getDcmFileinfo ("r" ++ "/" ++ "a.dcm") ⟨none, none, none, none, none, none⟩] := by
  have h1 := (c7_dcm_one_per_dir (fun _ => ⟨none, none, none, none, none, none⟩)
    [] [] ⟨"r", ["x.txt"]⟩).1 (by decide)
  have h2 := (c7_dcm_one_per_dir (fun _ => ⟨none, none, none, none, none, none⟩)
    [] [] ⟨"r", ["a.dcm", "b.dcm"]⟩).2 "a.dcm" ["b.dcm"] (by decide)
  exact ⟨h1, h2⟩

/-- On a string that does end with `.nii.gz`, the code's regex-based strip
agrees with the plain suffix strip of the spec. -/
theorem stripNiiGz_eq_spec_of_suffix {b : String} (h : niigzSuffix <:+ b.data) :
    stripNiiGz b = stripSuffixSpec b ".nii.gz" := by
  have hb : (".nii.gz" : String).data.isSuffixOf b.data = true :=
    List.isSuffixOf_iff_suffix.mpr h
  unfold stripNiiGz stripSuffixSpec niigzSuffix
  rw [if_pos hb, if_pos hb]
  have hlen : (".nii.gz" : String).data.length = 7 := by decide
  rw [hlen]

/-- Records of the NIfTI inventory carry a filename ending in `.nii.gz`,
whose basename then also ends in `.nii.gz`. -/
theorem niigz_isSuffix_basename_of_mem {names : List String} {r : NiiRecord}
    (hr : r ∈ getNiiFileinfos names) : niigzSuffix <:+ (basename r.filename).data := by
  obtain ⟨-, hsuf, -⟩ := mem_getNiiFileinfos hr
  exact isSuffix_basename (List.isSuffixOf_iff_suffix.mp hsuf) (by decide)

/-- Claim C8: for each matched pair, `main` computes the output directory
as `outputRoot ++ "/" ++ stripSuffix(niiBaseName, ".nii.gz")` and calls the
conversion routine with the NIfTI path, that directory, the literal `"MR"`,
and the paired DICOM file's path as reference — one call per pair, in
order.  (The inventory filter guarantees each NIfTI filename ends in
`.nii.gz`, so the code's regex strip coincides with the plain suffix
strip.) -/
theorem c8_conversion_driver (meta : String → DcmRead) (names : List String)
    (dirs : List WalkDir) (out : String) :
    mainRun meta names dirs out
      = (niiDcmPairs (getNiiFileinfos names) (getDcmFileinfos meta dirs)).map
          (fun p => ⟨p.1.filename,
            out ++ "/" ++ stripSuffixSpec (basename p.1.filename) ".nii.gz",
            "MR", p.2.filename⟩) := by
  unfold mainRun mainConvCalls
  rw [List.map_eq_map_iff]
  intro p hp
  have hn : p.1 ∈ getNiiFileinfos names := by
    obtain ⟨n, d⟩ := p
    exact (mem_niiDcmPairs_iff.mp hp).1
  have hb := niigz_isSuffix_basename_of_mem hn
  rw [show getOutdir out p.1.filename
      = out ++ "/" ++ stripSuffixSpec (basename p.1.filename) ".nii.gz" by
    unfold getOutdir
    rw [stripNiiGz_eq_spec_of_suffix hb]]

/-- Claim C9: a NIfTI record's path is the bare directory entry (equal to
its base name, and it is the `src` argument of the conversion call), while
every DICOM record's path is the walk root joined to the representative
filename by `/`. -/
theorem c9_paths (names : List String) (h : ∀ nm ∈ names, ('/' : Char) ∉ nm.data) :
    (∀ r ∈ getNiiFileinfos names, r.filename ∈ names ∧ r.base_filename = r.filename)
    ∧ (∀ (meta : String → DcmRead) (dirs : List WalkDir) (r : DcmRecord),
        r ∈ getDcmFileinfos meta dirs →
          ∃ d ∈ dirs, ∃ f, f ∈ d.filenames ∧ hasSuffix f ".dcm" = true
            ∧ r.filename = d.root ++ "/" ++ f)
    ∧ (∀ (out : String) (pairs : List (NiiRecord × DcmRecord)) (c : ConvCall),
        c ∈ mainConvCalls out pairs → ∃ p ∈ pairs, c.src = p.1.filename) := by
  refine ⟨?_, ?_, ?_⟩
  · intro r hr
    unfold getNiiFileinfos at hr
    rw [List.mem_map] at hr
    obtain ⟨x, hx, rfl⟩ := hr
    rw [List.mem_filter] at hx
    exact ⟨hx.1, basename_eq_self (h x hx.1)⟩
  · intro meta dirs r hr
    unfold getDcmFileinfos at hr
    rw [List.mem_filterMap] at hr
    obtain ⟨dd, hdd, hsome⟩ := hr
    unfold dirDcmRecord at hsome
    cases hfil : dd.filenames.filter (fun x => hasSuffix x ".dcm") with
    | nil =>
      rw [hfil] at hsome
      exact Option.noConfusion hsome
    | cons f rest =>
      rw [hfil] at hsome
      obtain rfl := Option.some_inj.mp hsome
      have hf : f ∈ dd.filenames.filter (fun x => hasSuffix x ".dcm") := by
        rw [hfil]
        exact List.mem_cons_self f rest
      exact ⟨dd, hdd, f, List.mem_of_mem_filter hf,
        @List.of_mem_filter _ (fun x => hasSuffix x ".dcm") f dd.filenames hf, rfl⟩
  · intro out pairs c hc
    unfold mainConvCalls at hc
    rw [List.mem_map] at hc
    obtain ⟨p, hp, rfl⟩ := hc
    exact ⟨p, hp, rfl⟩

/-- Witness for C9 at a concrete slash-free listing. -/
theorem c9_paths_witness :
    (getNiiFileinfo "a_ss_zmap.nii.gz").base_filename
      = (getNiiFileinfo "a_ss_zmap.nii.gz").filename := by
  have h := (c9_paths ["a_ss_zmap.nii.gz"] (by decide)).1
  exact (h (getNiiFileinfo "a_ss_zmap.nii.gz") (by decide)).2

end AdcToZmap
